import Mathlib

/-!
Verification of the DNS-resolution onion-message codec
(`lightning/src/onion_message/dns_resolution.rs`).

Byte streams are modelled as `List Nat` (each element a byte value < 256);
text (Rust `String`/`&str`) is modelled by its UTF-8 byte sequence, also a
`List Nat`.  Readers are explicit state-passing functions
`List Nat → Except DecodeError (α × List Nat)` returning the decoded value
and the unconsumed remainder.
-/

set_option maxRecDepth 10000

namespace DnsResolution

/-- Decoding errors.  `shortRead` models an underlying I/O read failure
(truncated input: the reader reaches end of input before the declared
length is satisfied); `invalidValue` models `DecodeError::InvalidValue`. -/
inductive DecodeError where
  | shortRead
  | invalidValue
deriving DecidableEq, Repr

/-- View of an `Except` value as a sum, to derive decidable equality. -/
def exceptToSum {ε α : Type} : Except ε α → ε ⊕ α
  | .error e => .inl e
  | .ok a => .inr a

instance {ε α : Type} [DecidableEq ε] [DecidableEq α] : DecidableEq (Except ε α) :=
  fun a b =>
    decidable_of_iff (exceptToSum a = exceptToSum b)
      (by cases a <;> cases b <;> simp [exceptToSum])

/-- Modelled from the spec: reading a single byte (`u8`) from the byte
source; an exhausted source is an underlying read failure. -/
def readU8 (s : List Nat) : Except DecodeError (Nat × List Nat) :=
  match s with
  | [] => .error .shortRead
  | b :: rest => .ok (b, rest)

/-- Modelled from the spec: `read_exact` on the byte source — read exactly
`n` bytes; if the declared length exceeds the remaining bytes the read
fails (truncated input), and no byte past the end is ever touched. -/
def readExact (n : Nat) (s : List Nat) : Except DecodeError (List Nat × List Nat) :=
  if n ≤ s.length then .ok (s.take n, s.drop n) else .error .shortRead

/-- The one-byte write of a length cast `as u8` (truncating to 8 bits). -/
def writeU8 (n : Nat) : List Nat := [n % 256]

/-- Split a byte string into its dot-separated segments
(the separator is byte 46, `'.'`). -/
def splitOnByte (sep : Nat) : List Nat → List (List Nat)
  | [] => [[]]
  | b :: rest =>
    if b = sep then [] :: splitOnByte sep rest
    else
      match splitOnByte sep rest with
      | [] => [[b]]
      | seg :: segs => (b :: seg) :: segs

/-- Modelled from the spec: a hostname character is a letter, a digit or a
hyphen (the dot, byte 46, acts as the segment separator and is handled by
`splitOnByte`). -/
def isHostnameChar (b : Nat) : Bool :=
  (65 ≤ b && b ≤ 90) || (97 ≤ b && b ≤ 122) || (48 ≤ b && b ≤ 57) || b = 45

/-- Modelled from the spec: one dot-separated segment of a hostname is
valid when every character is a letter, digit or hyphen and no segment
starts or ends with a hyphen. -/
def segmentValid (s : List Nat) : Bool :=
  s.all isHostnameChar && s.head? ≠ some 45 && s.getLast? ≠ some 45

/-- Modelled from the spec: the external hostname validator
(`Hostname::str_is_valid_hostname`, not under `src/`) — a validated
hostname string is at most 255 bytes and every dot-separated segment
passes the character rules. -/
def str_is_valid_hostname (s : List Nat) : Bool :=
  s.length ≤ 255 && (splitOnByte 46 s).all segmentValid

/-- Modelled from the spec: a DNS `Name` is an opaque external type
"treated as a validated hostname string ≤ 255 bytes". -/
def Name : Type := { s : List Nat // str_is_valid_hostname s = true }

instance : DecidableEq Name := fun a b =>
  decidable_of_iff (a.val = b.val) Subtype.ext_iff.symm

/-- The byte text of a `Name` (`Name::as_str().as_bytes()`). -/
def Name.text (n : Name) : List Nat := n.val

/-- Modelled from the spec: conversion of a read hostname string into a
DNS `Name` (`try_into`); it fails when the text is not a valid name. -/
def Name.tryFrom (s : List Nat) : Option Name :=
  if h : str_is_valid_hostname s = true then some ⟨s, h⟩ else none

/-- Modelled from the spec: `Hostname::read` — read a one-byte length,
read exactly that many bytes, and validate the result as a hostname
(an invalid hostname is an "invalid value" decoding failure). -/
def hostnameRead (s : List Nat) : Except DecodeError (List Nat × List Nat) :=
  match readU8 s with
  | .error e => .error e
  | .ok (len, s) =>
    match readExact len s with
    | .error e => .error e
    | .ok (bs, s) =>
      if str_is_valid_hostname bs then .ok (bs, s) else .error .invalidValue

/-- Big-endian byte encoding of `n` into exactly `w` bytes (the Lightning
serialization convention for fixed-width integers). -/
def beBytes : Nat → Nat → List Nat
  | 0, _ => []
  | w + 1, n => (n / 256 ^ w) % 256 :: beBytes w n

/-- Fold `w` big-endian bytes back into a number. -/
def beVal (bs : List Nat) : Nat := bs.foldl (fun acc b => acc * 256 + b) 0

/-- Read a fixed-width big-endian integer of `w` bytes. -/
def readBE (w : Nat) (s : List Nat) : Except DecodeError (Nat × List Nat) :=
  match readExact w s with
  | .error e => .error e
  | .ok (bs, s) => .ok (beVal bs, s)

/-- Modelled from the spec: the variable-length integer of the shared
serialization convention (`BigSize`): values below `0xfd` in one byte,
then `0xfd`/`0xfe`/`0xff` markers followed by 2/4/8 big-endian bytes. -/
def bigSizeWrite (n : Nat) : List Nat :=
  if n < 0xfd then [n]
  else if n < 0x10000 then 0xfd :: beBytes 2 n
  else if n < 0x100000000 then 0xfe :: beBytes 4 n
  else 0xff :: beBytes 8 n

/-- Modelled from the spec: reading a `BigSize`, rejecting non-minimal
encodings as "invalid value". -/
def bigSizeRead (s : List Nat) : Except DecodeError (Nat × List Nat) :=
  match readU8 s with
  | .error e => .error e
  | .ok (b, s) =>
    if b = 0xff then
      match readBE 8 s with
      | .error e => .error e
      | .ok (n, s) => if n < 0x100000000 then .error .invalidValue else .ok (n, s)
    else if b = 0xfe then
      match readBE 4 s with
      | .error e => .error e
      | .ok (n, s) => if n < 0x10000 then .error .invalidValue else .ok (n, s)
    else if b = 0xfd then
      match readBE 2 s with
      | .error e => .error e
      | .ok (n, s) => if n < 0xfd then .error .invalidValue else .ok (n, s)
    else .ok (b, s)

/-- Modelled from the spec: the collection-length prefix of the shared
serialization convention — a 16-bit big-endian length, with `0xffff`
escaping to a `BigSize` holding the excess over `0xffff`. -/
def collectionLenWrite (n : Nat) : List Nat :=
  if n < 0xffff then beBytes 2 n
  else beBytes 2 0xffff ++ bigSizeWrite (n - 0xffff)

/-- Modelled from the spec: reading a collection-length prefix. -/
def collectionLenRead (s : List Nat) : Except DecodeError (Nat × List Nat) :=
  match readBE 2 s with
  | .error e => .error e
  | .ok (n, s) =>
    if n = 0xffff then
      match bigSizeRead s with
      | .error e => .error e
      | .ok (m, s) => .ok (0xffff + m, s)
    else .ok (n, s)

/-- Modelled from the spec: `Writeable for Vec<u8>` — a "generic
variable-length-prefixed byte-sequence encoding": collection-length
prefix followed by the raw bytes. -/
def vecU8Write (v : List Nat) : List Nat := collectionLenWrite v.length ++ v

/-- Modelled from the spec: `Readable for Vec<u8>` — read the
collection-length prefix, then exactly that many raw bytes. -/
def vecU8Read (s : List Nat) : Except DecodeError (List Nat × List Nat) :=
  match collectionLenRead s with
  | .error e => .error e
  | .ok (len, s) => readExact len s

/-- Embeds `pub struct DNSSECQuery(pub Name)`. -/
structure DNSSECQuery where
  name : Name
deriving DecidableEq

/-- Embeds `pub struct DNSSECProof`: a `Name` and opaque proof bytes. -/
structure DNSSECProof where
  name : Name
  proof : List Nat
deriving DecidableEq

/-- Embeds `pub enum DNSResolverMessage`. -/
inductive DNSResolverMessage where
  | DNSSECQuery (q : DNSSECQuery)
  | DNSSECProof (p : DNSSECProof)
deriving DecidableEq

def DNSSEC_QUERY_TYPE : Nat := 65536
def DNSSEC_PROOF_TYPE : Nat := 65538

/-- Embeds `DNSResolverMessage::is_known_type`. -/
def DNSResolverMessage.is_known_type (tlv_type : Nat) : Bool :=
  tlv_type = DNSSEC_QUERY_TYPE || tlv_type = DNSSEC_PROOF_TYPE

/-- Embeds `OnionMessageContents::tlv_type` for `DNSResolverMessage`. -/
def DNSResolverMessage.tlv_type : DNSResolverMessage → Nat
  | .DNSSECQuery _ => DNSSEC_QUERY_TYPE
  | .DNSSECProof _ => DNSSEC_PROOF_TYPE

/-- Embeds `Writeable for DNSResolverMessage::write`: the name's length `as u8`,
the raw name bytes, and for proofs the length-prefixed proof bytes. -/
def DNSResolverMessage.write : DNSResolverMessage → List Nat
  | .DNSSECQuery q => writeU8 q.name.text.length ++ q.name.text
  | .DNSSECProof p => writeU8 p.name.text.length ++ p.name.text ++ vecU8Write p.proof

/-- Embeds `ReadableArgs<u64> for DNSResolverMessage::read`: dispatch on the
message type; read a hostname (and, for proofs, the proof bytes); any
name-conversion failure and any unknown type is "invalid value". -/
def DNSResolverMessage.read (s : List Nat) (message_type : Nat) :
    Except DecodeError (DNSResolverMessage × List Nat) :=
  if message_type = DNSSEC_QUERY_TYPE then
    match hostnameRead s with
    | .error e => .error e
    | .ok (h, s) =>
      match Name.tryFrom h with
      | none => .error .invalidValue
      | some name => .ok (.DNSSECQuery ⟨name⟩, s)
  else if message_type = DNSSEC_PROOF_TYPE then
    match hostnameRead s with
    | .error e => .error e
    | .ok (h, s) =>
      match Name.tryFrom h with
      | none => .error .invalidValue
      | some name =>
        match vecU8Read s with
        | .error e => .error e
        | .ok (proof, s) => .ok (.DNSSECProof ⟨name, proof⟩, s)
  else .error .invalidValue

/-- A UTF-8 continuation byte (`0x80`–`0xBF`). -/
def isContByte (b : Nat) : Bool := 0x80 ≤ b && b ≤ 0xBF

/-- The lower bound on the first continuation byte of a multi-byte UTF-8
sequence led by `b` (rules out overlong forms and surrogates). -/
def utf8C1Lo (b : Nat) : Nat :=
  if b = 0xE0 then 0xA0 else if b = 0xF0 then 0x90 else 0x80

/-- The upper bound on the first continuation byte of a multi-byte UTF-8
sequence led by `b` (rules out surrogates and code points past
`U+10FFFF`). -/
def utf8C1Hi (b : Nat) : Nat :=
  if b = 0xED then 0x9F else if b = 0xF4 then 0x8F else 0xBF

mutual

/-- Validity of a byte sequence as UTF-8 (RFC 3629), as checked by
`String::from_utf8`: rejects overlong forms, surrogates and code points
above `U+10FFFF`. -/
def validUtf8 : List Nat → Bool
  | [] => true
  | b :: rest =>
    if b ≤ 0x7F then validUtf8 rest
    else if 0xC2 ≤ b && b ≤ 0xDF then utf8Tail1 b rest
    else if 0xE0 ≤ b && b ≤ 0xEF then utf8Tail2 b rest
    else if 0xF0 ≤ b && b ≤ 0xF4 then utf8Tail3 b rest
    else false

/-- Continuation of a two-byte UTF-8 sequence led by `b`. -/
def utf8Tail1 (b : Nat) : List Nat → Bool
  | c1 :: rest => (utf8C1Lo b ≤ c1 && c1 ≤ utf8C1Hi b) && validUtf8 rest
  | [] => false

/-- Continuation of a three-byte UTF-8 sequence led by `b`. -/
def utf8Tail2 (b : Nat) : List Nat → Bool
  | c1 :: c2 :: rest =>
    (utf8C1Lo b ≤ c1 && c1 ≤ utf8C1Hi b) && isContByte c2 && validUtf8 rest
  | _ => false

/-- Continuation of a four-byte UTF-8 sequence led by `b`. -/
def utf8Tail3 (b : Nat) : List Nat → Bool
  | c1 :: c2 :: c3 :: rest =>
    (utf8C1Lo b ≤ c1 && c1 ≤ utf8C1Hi b) && isContByte c2 && isContByte c3 &&
      validUtf8 rest
  | _ => false

end

/-- Embeds `pub struct HumanReadableName`, its `user` and `domain`
strings modelled by their UTF-8 bytes. -/
structure HumanReadableName where
  user : List Nat
  domain : List Nat
deriving DecidableEq

/-- Embeds `".user._bitcoin-payment.".len() + 1`. -/
def REQUIRED_EXTRA_LEN : Nat := (".user._bitcoin-payment.").length + 1

/-- Embeds `HumanReadableName::new`: checks the length budget, then emptiness,
then hostname validity of both parts; `Result<_, ()>` modelled as
`Option`. -/
def HumanReadableName.new (user domain : List Nat) : Option HumanReadableName :=
  if user.length + domain.length + REQUIRED_EXTRA_LEN > 255 then none
  else if user.isEmpty || domain.isEmpty then none
  else if !str_is_valid_hostname user || !str_is_valid_hostname domain then none
  else some ⟨user, domain⟩

/-- The UTF-8 bytes of the BIP 353 `₿` marker (`U+20BF`). -/
def bitcoinMarker : List Nat := [226, 130, 191]

/-- Embeds the marker stripping of `from_encoded`: remove one leading `₿`
marker when present, else leave the input unchanged. -/
def stripBitcoinMarker (s : List Nat) : List Nat :=
  if s.take 3 = bitcoinMarker then s.drop 3 else s

/-- Embeds `str::split_once`: split at the first occurrence of `sep`, returning
the parts before and after it; `none` when `sep` does not occur. -/
def splitOnce (sep : Nat) : List Nat → Option (List Nat × List Nat)
  | [] => none
  | b :: rest =>
    if b = sep then some ([], rest)
    else
      match splitOnce sep rest with
      | none => none
      | some (l, r) => some (b :: l, r)

/-- Embeds `HumanReadableName::from_encoded`: strip one `₿` marker if present,
split at the first `@` (byte 64), and delegate to `new`; no `@` fails. -/
def HumanReadableName.from_encoded (encoded : List Nat) : Option HumanReadableName :=
  match splitOnce 64 (stripBitcoinMarker encoded) with
  | some (user, domain) => HumanReadableName.new user domain
  | none => none

/-- Embeds `Writeable for HumanReadableName::write`: each part's length `as u8`
followed by the raw part bytes. -/
def HumanReadableName.write (h : HumanReadableName) : List Nat :=
  writeU8 h.user.length ++ h.user ++ writeU8 h.domain.length ++ h.domain

/-- Embeds `Readable for HumanReadableName::read`: one-byte length and exactly
that many bytes per part, each part decoded as UTF-8 text (failure is
"invalid value"), then `HumanReadableName::new` on the pair. -/
def HumanReadableName.read (s : List Nat) :
    Except DecodeError (HumanReadableName × List Nat) :=
  match readU8 s with
  | .error e => .error e
  | .ok (user_len, s) =>
    match readExact user_len s with
    | .error e => .error e
    | .ok (user, s) =>
      if validUtf8 user = false then .error .invalidValue else
      match readU8 s with
      | .error e => .error e
      | .ok (domain_len, s) =>
        match readExact domain_len s with
        | .error e => .error e
        | .ok (domain, s) =>
          if validUtf8 domain = false then .error .invalidValue else
          match HumanReadableName.new user domain with
          | some h => .ok (h, s)
          | none => .error .invalidValue

/-! ### Helper lemmas -/

theorem readExact_append (l rest : List Nat) :
    readExact l.length (l ++ rest) = .ok (l, rest) := by
  simp [readExact, List.take_left, List.drop_left]

theorem readExact_short {n : Nat} {s : List Nat} (h : s.length < n) :
    readExact n s = .error .shortRead := by
  simp [readExact]; omega

theorem hostname_length_le {s : List Nat} (h : str_is_valid_hostname s = true) :
    s.length ≤ 255 := by
  simp only [str_is_valid_hostname, Bool.and_eq_true, decide_eq_true_eq] at h
  exact h.1

theorem hostnameRead_eval {nm : List Nat} (rest : List Nat)
    (h : str_is_valid_hostname nm = true) :
    hostnameRead (nm.length :: (nm ++ rest)) = .ok (nm, rest) := by
  simp [hostnameRead, readU8, readExact_append, h]

theorem splitOnByte_ne_nil (sep : Nat) (s : List Nat) : splitOnByte sep s ≠ [] := by
  induction s with
  | nil => simp [splitOnByte]
  | cons b rest ih =>
    simp only [splitOnByte]
    split
    · simp
    · cases hr : splitOnByte sep rest with
      | nil => simp
      | cons seg segs => simp [hr]

theorem mem_splitOnByte {sep b : Nat} {s : List Nat} (hb : b ∈ s) :
    b = sep ∨ ∃ seg ∈ splitOnByte sep s, b ∈ seg := by
  induction s with
  | nil => cases hb
  | cons c rest ih =>
    rcases List.mem_cons.mp hb with hbc | hbrest
    · subst hbc
      by_cases hcs : b = sep
      · exact Or.inl hcs
      · right
        cases hr : splitOnByte sep rest with
        | nil => exact absurd hr (splitOnByte_ne_nil sep rest)
        | cons seg segs =>
          refine ⟨b :: seg, ?_, List.mem_cons_self _ _⟩
          simp [splitOnByte, hcs, hr]
    · rcases ih hbrest with hs | ⟨seg, hseg, hbseg⟩
      · exact Or.inl hs
      · right
        by_cases hcs : c = sep
        · exact ⟨seg, by simp [splitOnByte, hcs, hseg], hbseg⟩
        · cases hr : splitOnByte sep rest with
          | nil => exact absurd hr (splitOnByte_ne_nil sep rest)
          | cons seg' segs =>
            rw [hr] at hseg
            rcases List.mem_cons.mp hseg with h1 | h2
            · exact ⟨c :: seg', by simp [splitOnByte, hcs, hr],
                by subst h1; exact List.mem_cons_of_mem _ hbseg⟩
            · exact ⟨seg, by simp [splitOnByte, hcs, hr, h2], hbseg⟩

theorem hostname_mem {s : List Nat} (h : str_is_valid_hostname s = true)
    {b : Nat} (hb : b ∈ s) : isHostnameChar b = true ∨ b = 46 := by
  rcases @mem_splitOnByte 46 b s hb with h46 | ⟨seg, hseg, hbseg⟩
  · exact Or.inr h46
  · left
    simp only [str_is_valid_hostname, Bool.and_eq_true, List.all_eq_true] at h
    have hseg' := h.2 seg hseg
    simp only [segmentValid, Bool.and_eq_true, List.all_eq_true] at hseg'
    exact hseg'.1.1 b hbseg

theorem hostname_byte_lt {s : List Nat} (h : str_is_valid_hostname s = true)
    {b : Nat} (hb : b ∈ s) : b < 128 := by
  rcases hostname_mem h hb with hc | h46
  · simp only [isHostnameChar, Bool.or_eq_true, Bool.and_eq_true,
      decide_eq_true_eq] at hc
    omega
  · omega

theorem hostname_no_at {s : List Nat} (h : str_is_valid_hostname s = true) :
    ¬ (64 ∈ s) := by
  intro hb
  rcases hostname_mem h hb with hc | h46
  · exact absurd hc (by decide)
  · omega

theorem validUtf8_of_ascii {s : List Nat} (h : ∀ b ∈ s, b < 128) :
    validUtf8 s = true := by
  induction s with
  | nil => rfl
  | cons b rest ih =>
    have hb : b ≤ 0x7F := by have := h b (List.mem_cons_self _ _); omega
    rw [validUtf8, if_pos hb]
    exact ih fun x hx => h x (List.mem_cons_of_mem _ hx)

theorem hostname_validUtf8 {s : List Nat} (h : str_is_valid_hostname s = true) :
    validUtf8 s = true :=
  validUtf8_of_ascii fun _ hb => hostname_byte_lt h hb

theorem required_extra_len_eq : REQUIRED_EXTRA_LEN = 24 := by rfl

theorem new_elim {u d : List Nat} {h : HumanReadableName}
    (hc : HumanReadableName.new u d = some h) :
    h.user = u ∧ h.domain = d ∧
    u.length + d.length + 24 ≤ 255 ∧ u ≠ [] ∧ d ≠ [] ∧
    str_is_valid_hostname u = true ∧ str_is_valid_hostname d = true := by
  unfold HumanReadableName.new at hc
  split at hc
  · exact absurd hc (by simp)
  · split at hc
    · exact absurd hc (by simp)
    · split at hc
      · exact absurd hc (by simp)
      · rename_i h1 h2 h3
        obtain rfl : (⟨u, d⟩ : HumanReadableName) = h := Option.some.inj hc
        rw [required_extra_len_eq] at h1
        simp only [not_lt] at h1
        simp only [Bool.or_eq_true, List.isEmpty_iff, not_or] at h2
        simp only [Bool.or_eq_true, Bool.not_eq_true', Bool.not_eq_false] at h3
        push_neg at h3
        exact ⟨rfl, rfl, by omega, h2.1, h2.2,
          Bool.ne_false_iff.mp h3.1, Bool.ne_false_iff.mp h3.2⟩

theorem beBytes_length (w n : Nat) : (beBytes w n).length = w := by
  induction w generalizing n with
  | zero => rfl
  | succ w ih => simp [beBytes, ih]

theorem beVal_foldl (w n a : Nat) :
    (beBytes w n).foldl (fun acc b => acc * 256 + b) a = a * 256 ^ w + n % 256 ^ w := by
  induction w generalizing a with
  | zero => simp [beBytes, Nat.mod_one]
  | succ w ih =>
    rw [beBytes, List.foldl_cons, ih]
    have hmul : n % 256 ^ (w + 1) = n % 256 ^ w + 256 ^ w * (n / 256 ^ w % 256) := by
      rw [pow_succ, Nat.mod_mul]
    rw [hmul, pow_succ]
    ring

theorem beVal_beBytes (w n : Nat) : beVal (beBytes w n) = n % 256 ^ w := by
  have := beVal_foldl w n 0
  simpa [beVal] using this

theorem readBE_beBytes (w n : Nat) (rest : List Nat) :
    readBE w (beBytes w n ++ rest) = .ok (n % 256 ^ w, rest) := by
  have h1 : readExact w (beBytes w n ++ rest) = .ok (beBytes w n, rest) := by
    have := readExact_append (beBytes w n) rest
    rwa [beBytes_length] at this
  rw [readBE, h1]
  dsimp only
  rw [beVal_beBytes]

theorem bigSizeRead_write (n : Nat) (rest : List Nat) (hn : n < 2 ^ 64) :
    bigSizeRead (bigSizeWrite n ++ rest) = .ok (n, rest) := by
  by_cases h1 : n < 0xfd
  · rw [bigSizeWrite, if_pos h1]
    rw [show ([n] ++ rest : List Nat) = n :: rest from rfl]
    rw [bigSizeRead, readU8]
    dsimp only
    rw [if_neg (show ¬ n = 0xff by omega), if_neg (show ¬ n = 0xfe by omega),
      if_neg (show ¬ n = 0xfd by omega)]
  · by_cases h2 : n < 0x10000
    · rw [bigSizeWrite, if_neg h1, if_pos h2]
      rw [show (((0xfd : Nat) :: beBytes 2 n) ++ rest) = 0xfd :: (beBytes 2 n ++ rest) from rfl]
      rw [bigSizeRead, readU8]
      dsimp only
      rw [if_neg (by decide), if_neg (by decide), if_pos (by decide), readBE_beBytes]
      dsimp only
      rw [Nat.mod_eq_of_lt (lt_of_lt_of_le h2 (by norm_num))]
      rw [if_neg (show ¬ n < 0xfd by omega)]
    · by_cases h3 : n < 0x100000000
      · rw [bigSizeWrite, if_neg h1, if_neg h2, if_pos h3]
        rw [show (((0xfe : Nat) :: beBytes 4 n) ++ rest) = 0xfe :: (beBytes 4 n ++ rest) from rfl]
        rw [bigSizeRead, readU8]
        dsimp only
        rw [if_neg (by decide), if_pos (by decide), readBE_beBytes]
        dsimp only
        rw [Nat.mod_eq_of_lt (lt_of_lt_of_le h3 (by norm_num))]
        rw [if_neg (show ¬ n < 0x10000 by omega)]
      · rw [bigSizeWrite, if_neg h1, if_neg h2, if_neg h3]
        rw [show (((0xff : Nat) :: beBytes 8 n) ++ rest) = 0xff :: (beBytes 8 n ++ rest) from rfl]
        rw [bigSizeRead, readU8]
        dsimp only
        rw [if_pos (by decide), readBE_beBytes]
        dsimp only
        rw [Nat.mod_eq_of_lt (lt_of_lt_of_le hn (by norm_num))]
        rw [if_neg (show ¬ n < 0x100000000 by omega)]

theorem collectionLenRead_write (n : Nat) (rest : List Nat) (hn : n < 2 ^ 64) :
    collectionLenRead (collectionLenWrite n ++ rest) = .ok (n, rest) := by
  by_cases h1 : n < 0xffff
  · rw [collectionLenWrite, if_pos h1]
    rw [collectionLenRead, readBE_beBytes]
    dsimp only
    rw [Nat.mod_eq_of_lt (lt_of_lt_of_le h1 (by norm_num))]
    rw [if_neg (show ¬ n = 0xffff by omega)]
  · rw [collectionLenWrite, if_neg h1]
    rw [List.append_assoc]
    rw [collectionLenRead, readBE_beBytes]
    dsimp only
    rw [Nat.mod_eq_of_lt (by norm_num)]
    rw [if_pos rfl]
    rw [bigSizeRead_write _ _ (show n - 0xffff < 2 ^ 64 by omega)]
    dsimp only
    rw [show 0xffff + (n - 0xffff) = n by omega]

theorem vecU8Read_write (v rest : List Nat) (h : v.length < 2 ^ 64) :
    vecU8Read (vecU8Write v ++ rest) = .ok (v, rest) := by
  rw [vecU8Write, List.append_assoc, vecU8Read, collectionLenRead_write _ _ h]
  exact readExact_append v rest

theorem new_eval {u d : List Nat} (hu : str_is_valid_hostname u = true)
    (hd : str_is_valid_hostname d = true) (hue : u ≠ []) (hde : d ≠ [])
    (hlen : u.length + d.length + 24 ≤ 255) :
    HumanReadableName.new u d = some ⟨u, d⟩ := by
  unfold HumanReadableName.new
  rw [required_extra_len_eq]
  rw [if_neg (by omega)]
  rw [if_neg (by simp [List.isEmpty_iff, hue, hde])]
  rw [if_neg (by simp [hu, hd])]

theorem hrn_read_eval (u d rest : List Nat) (h : HumanReadableName)
    (hn : HumanReadableName.new u d = some h)
    (hu8 : validUtf8 u = true) (hd8 : validUtf8 d = true) :
    HumanReadableName.read (u.length :: (u ++ d.length :: (d ++ rest))) = .ok (h, rest) := by
  rw [HumanReadableName.read, readU8]
  dsimp only
  rw [readExact_append u (d.length :: (d ++ rest))]
  dsimp only
  rw [hu8]
  rw [if_neg (by simp)]
  rw [readU8]
  dsimp only
  rw [readExact_append d rest]
  dsimp only
  rw [hd8]
  rw [if_neg (by simp)]
  rw [hn]

theorem hrn_read_elim {s r : List Nat} {h : HumanReadableName}
    (hr : HumanReadableName.read s = .ok (h, r)) :
    s = h.user.length :: (h.user ++ h.domain.length :: (h.domain ++ r)) ∧
    validUtf8 h.user = true ∧ validUtf8 h.domain = true ∧
    HumanReadableName.new h.user h.domain = some h := by
  match s with
  | [] => exact absurd hr (by rw [HumanReadableName.read, readU8]; simp)
  | ul :: s1 =>
    rw [HumanReadableName.read, readU8] at hr
    dsimp only at hr
    by_cases hle : ul ≤ s1.length
    · rw [readExact, if_pos hle] at hr
      dsimp only at hr
      by_cases hu8 : validUtf8 (s1.take ul) = false
      · rw [if_pos hu8] at hr; exact absurd hr (by simp)
      · rw [if_neg hu8] at hr
        rw [Bool.not_eq_false] at hu8
        match hs2 : s1.drop ul with
        | [] => rw [hs2, readU8] at hr; exact absurd hr (by simp)
        | dl :: s3 =>
          rw [hs2, readU8] at hr
          dsimp only at hr
          by_cases hle2 : dl ≤ s3.length
          · rw [readExact, if_pos hle2] at hr
            dsimp only at hr
            by_cases hd8 : validUtf8 (s3.take dl) = false
            · rw [if_pos hd8] at hr; exact absurd hr (by simp)
            · rw [if_neg hd8] at hr
              rw [Bool.not_eq_false] at hd8
              match hnew : HumanReadableName.new (s1.take ul) (s3.take dl) with
              | none => rw [hnew] at hr; exact absurd hr (by simp)
              | some h' =>
                rw [hnew] at hr
                dsimp only at hr
                obtain ⟨hh, hrr⟩ : h' = h ∧ s3.drop dl = r := by
                  have := Except.ok.inj hr
                  exact ⟨congrArg Prod.fst this, congrArg Prod.snd this⟩
                subst hh hrr
                obtain ⟨hu, hd, _, _, _, _, _⟩ := new_elim hnew
                have hul : (s1.take ul).length = ul := by
                  rw [List.length_take]; omega
                have hdl : (s3.take dl).length = dl := by
                  rw [List.length_take]; omega
                refine ⟨?_, hu ▸ hu8, hd ▸ hd8, by rw [hu, hd]; exact hnew⟩
                rw [hu, hd, hul, hdl]
                have e1 : s1 = s1.take ul ++ dl :: (s3.take dl ++ s3.drop dl) := by
                  rw [List.take_append_drop, ← hs2, List.take_append_drop]
                rw [← e1]
          · rw [readExact, if_neg hle2] at hr
            exact absurd hr (by simp)
    · rw [readExact, if_neg hle] at hr
      exact absurd hr (by simp)

theorem splitOnce_append {sep : Nat} {u : List Nat} (d : List Nat) (hu : ¬ sep ∈ u) :
    splitOnce sep (u ++ sep :: d) = some (u, d) := by
  induction u with
  | nil => simp [splitOnce]
  | cons b rest ih =>
    have hb : ¬ b = sep := fun hc => hu (hc ▸ List.mem_cons_self _ _)
    rw [List.cons_append, splitOnce, if_neg hb,
      ih fun hc => hu (List.mem_cons_of_mem _ hc)]

theorem splitOnce_none {sep : Nat} {s : List Nat} (h : ¬ sep ∈ s) :
    splitOnce sep s = none := by
  induction s with
  | nil => rfl
  | cons b rest ih =>
    have hb : ¬ b = sep := fun hc => h (hc ▸ List.mem_cons_self _ _)
    rw [splitOnce, if_neg hb, ih fun hc => h (List.mem_cons_of_mem _ hc)]

/-- The byte sequence of a plain-ASCII string literal. -/
def asciiBytes (s : String) : List Nat := s.data.map Char.toNat

/-- The DNS name `example.com` as a validated hostname string. -/
def exampleName : Name := ⟨asciiBytes "example.com", by decide⟩

/-- A concrete proof message used to instantiate the universal theorems. -/
def exampleProofMsg : DNSResolverMessage := .DNSSECProof ⟨exampleName, [9, 8, 7]⟩

/-! ### Claims -/

/-- C1: for every valid `DNSResolverMessage` `m` (a `DNSSECQuery` wrapping a
valid `Name`, or a `DNSSECProof` with a valid `Name` and arbitrary proof
bytes — a Rust `Vec<u8>`, whose length is a `usize` and so below `2^64`),
decoding the bytes produced by encoding `m`, using `m`'s own TLV tag as
returned by `tlv_type`, yields exactly `m` (and consumes the whole
encoding). -/
theorem message_roundtrip (m : DNSResolverMessage)
    (hp : ∀ p, m = .DNSSECProof p → p.proof.length < 2 ^ 64) :
    DNSResolverMessage.read (DNSResolverMessage.write m) m.tlv_type = .ok (m, []) := by
  cases m with
  | DNSSECQuery q =>
    have hprop : str_is_valid_hostname q.name.text = true := q.name.property
    have hlen : q.name.text.length ≤ 255 := hostname_length_le hprop
    rw [DNSResolverMessage.write, DNSResolverMessage.tlv_type]
    rw [DNSResolverMessage.read, if_pos rfl]
    rw [writeU8, Nat.mod_eq_of_lt (by omega)]
    rw [show ([q.name.text.length] ++ q.name.text) =
      q.name.text.length :: (q.name.text ++ []) by simp]
    rw [hostnameRead_eval [] hprop]
    dsimp only
    rw [Name.tryFrom, dif_pos hprop]
    rfl
  | DNSSECProof p =>
    have hprop : str_is_valid_hostname p.name.text = true := p.name.property
    have hlen : p.name.text.length ≤ 255 := hostname_length_le hprop
    rw [DNSResolverMessage.write, DNSResolverMessage.tlv_type]
    rw [DNSResolverMessage.read, if_neg (by rw [DNSSEC_QUERY_TYPE, DNSSEC_PROOF_TYPE]; omega),
      if_pos rfl]
    rw [writeU8, Nat.mod_eq_of_lt (by omega)]
    rw [show ([p.name.text.length] ++ p.name.text ++ vecU8Write p.proof) =
      p.name.text.length :: (p.name.text ++ vecU8Write p.proof) by simp]
    rw [hostnameRead_eval (vecU8Write p.proof) hprop]
    dsimp only
    rw [Name.tryFrom, dif_pos hprop]
    dsimp only
    rw [show vecU8Write p.proof = vecU8Write p.proof ++ [] by simp]
    rw [vecU8Read_write p.proof [] (hp p rfl)]
    rfl

/-- Witness for C1 at a concrete proof message. -/
theorem message_roundtrip_witness :
    DNSResolverMessage.read (DNSResolverMessage.write exampleProofMsg)
      exampleProofMsg.tlv_type = .ok (exampleProofMsg, []) :=
  message_roundtrip exampleProofMsg (fun p hp => by cases hp; norm_num)

/-- C3: for every tag `t`, `is_known_type t` is `true` exactly when `t` is
`65536` or `65538` (as a total Lean function it never fails and has no
side effects), and `DNSResolverMessage` decode invoked with any other tag
returns the "invalid value" decoding error on every input. -/
theorem is_known_type_spec (t : Nat) :
    (DNSResolverMessage.is_known_type t = true ↔ t = 65536 ∨ t = 65538) ∧
    (t ≠ 65536 → t ≠ 65538 →
      ∀ s, DNSResolverMessage.read s t = .error .invalidValue) := by
  constructor
  · simp [DNSResolverMessage.is_known_type, DNSSEC_QUERY_TYPE, DNSSEC_PROOF_TYPE]
  · intro h1 h2 s
    rw [DNSResolverMessage.read, if_neg (show ¬ t = DNSSEC_QUERY_TYPE from h1),
      if_neg (show ¬ t = DNSSEC_PROOF_TYPE from h2)]

/-- Witness for C3 at tag `1`. -/
theorem is_known_type_spec_witness :
    DNSResolverMessage.is_known_type 1 = false ∧
    DNSResolverMessage.read [] 1 = .error .invalidValue :=
  ⟨by decide, (is_known_type_spec 1).2 (by decide) (by decide) []⟩

/-- C9: encoding `DNSSECQuery(Name("example.com"))` produces exactly the
one-byte length `11` followed by the raw ASCII bytes of `example.com`,
with no terminator or padding. -/
theorem query_write_example :
    DNSResolverMessage.write (.DNSSECQuery ⟨exampleName⟩) =
      [11, 101, 120, 97, 109, 112, 108, 101, 46, 99, 111, 109] ∧
    asciiBytes "example.com" =
      [101, 120, 97, 109, 112, 108, 101, 46, 99, 111, 109] := by
  constructor
  · rfl
  · rfl

theorem take3_ne_marker {s : List Nat} (hs : s ≠ []) (hb : ∀ b ∈ s, b < 128) :
    ¬ s.take 3 = bitcoinMarker := by
  match s with
  | [] => exact absurd rfl hs
  | b :: t =>
    intro hEq
    rw [List.take_succ_cons] at hEq
    have hb226 : b = 226 := (List.cons.inj hEq).1
    have := hb b (List.mem_cons_self _ _)
    omega

/-- C2: for every validly constructed `HumanReadableName` `h`, decoding
the binary encoding of `h` yields `h` again (consuming the whole
encoding), and parsing the text form `h.user ++ "@" ++ h.domain` — with
or without one leading `₿` marker — yields `h`. -/
theorem hrn_roundtrip (u d : List Nat) (h : HumanReadableName)
    (hc : HumanReadableName.new u d = some h) :
    HumanReadableName.read (HumanReadableName.write h) = .ok (h, []) ∧
    HumanReadableName.from_encoded (h.user ++ 64 :: h.domain) = some h ∧
    HumanReadableName.from_encoded (bitcoinMarker ++ (h.user ++ 64 :: h.domain)) = some h := by
  obtain ⟨hu, hd, hlen, hue, hde, huv, hdv⟩ := new_elim hc
  subst hu; subst hd
  have hcu : HumanReadableName.new h.user h.domain = some h := hc
  refine ⟨?_, ?_, ?_⟩
  · rw [HumanReadableName.write, writeU8, writeU8]
    rw [Nat.mod_eq_of_lt (show h.user.length < 256 by omega),
      Nat.mod_eq_of_lt (show h.domain.length < 256 by omega)]
    rw [show ([h.user.length] ++ h.user ++ [h.domain.length] ++ h.domain) =
      h.user.length :: (h.user ++ h.domain.length :: (h.domain ++ [])) by simp]
    exact hrn_read_eval _ _ [] h hcu (hostname_validUtf8 huv) (hostname_validUtf8 hdv)
  · rw [HumanReadableName.from_encoded, stripBitcoinMarker,
      if_neg (take3_ne_marker (by simp [hue]) ?_)]
    · rw [splitOnce_append h.domain (hostname_no_at huv)]
      exact hcu
    · intro b hbmem
      rcases List.mem_append.mp hbmem with hmem | hmem
      · exact hostname_byte_lt huv hmem
      · rcases List.mem_cons.mp hmem with rfl | hmem
        · omega
        · exact hostname_byte_lt hdv hmem
  · rw [HumanReadableName.from_encoded, stripBitcoinMarker]
    rw [show (bitcoinMarker ++ (h.user ++ 64 :: h.domain)).take 3 = bitcoinMarker by
      rw [show (3 : Nat) = bitcoinMarker.length from rfl]; exact List.take_left _ _]
    rw [if_pos rfl]
    rw [show (bitcoinMarker ++ (h.user ++ 64 :: h.domain)).drop 3 =
      h.user ++ 64 :: h.domain by
      rw [show (3 : Nat) = bitcoinMarker.length from rfl]; exact List.drop_left _ _]
    rw [splitOnce_append h.domain (hostname_no_at huv)]
    exact hcu

/-- Witness for C2 at `alice@example.com`. -/
theorem hrn_roundtrip_witness :
    HumanReadableName.read
        (HumanReadableName.write ⟨asciiBytes "alice", asciiBytes "example.com"⟩) =
      .ok (⟨asciiBytes "alice", asciiBytes "example.com"⟩, []) ∧
    HumanReadableName.from_encoded
        (asciiBytes "alice" ++ 64 :: asciiBytes "example.com") =
      some ⟨asciiBytes "alice", asciiBytes "example.com"⟩ :=
  have h := hrn_roundtrip (asciiBytes "alice") (asciiBytes "example.com")
    ⟨asciiBytes "alice", asciiBytes "example.com"⟩ (by decide)
  ⟨h.1, h.2.1⟩

/-- C5: for every validly constructed `HumanReadableName`, each of `user`
and `domain` has byte length at most 255, so the one-byte length cast in
the binary encoder is lossless (the encoder, a total function into an
in-memory byte list, emits the exact lengths untruncated). -/
theorem hrn_write_lossless (u d : List Nat) (h : HumanReadableName)
    (hc : HumanReadableName.new u d = some h) :
    h.user.length ≤ 255 ∧ h.domain.length ≤ 255 ∧
    HumanReadableName.write h =
      h.user.length :: (h.user ++ h.domain.length :: h.domain) := by
  obtain ⟨hu, hd, hlen, _, _, _, _⟩ := new_elim hc
  subst hu; subst hd
  refine ⟨by omega, by omega, ?_⟩
  rw [HumanReadableName.write, writeU8, writeU8,
    Nat.mod_eq_of_lt (show h.user.length < 256 by omega),
    Nat.mod_eq_of_lt (show h.domain.length < 256 by omega)]
  simp

/-- Witness for C5 at a concrete name. -/
theorem hrn_write_lossless_witness :
    ([97] : List Nat).length ≤ 255 ∧ ([98] : List Nat).length ≤ 255 ∧
    HumanReadableName.write ⟨[97], [98]⟩ = [1, 97, 1, 98] :=
  hrn_write_lossless [97] [98] ⟨[97], [98]⟩ (by decide)

/-- C6: for every pair of valid non-empty hostnames, `HumanReadableName`
construction succeeds when `len(user) + len(domain) + 24 = 255` and fails
when `len(user) + len(domain) + 24 = 256`. -/
theorem new_boundary (u d : List Nat)
    (hu : str_is_valid_hostname u = true) (hd : str_is_valid_hostname d = true)
    (hue : u ≠ []) (hde : d ≠ []) :
    (u.length + d.length + 24 = 255 → HumanReadableName.new u d = some ⟨u, d⟩) ∧
    (u.length + d.length + 24 = 256 → HumanReadableName.new u d = none) := by
  constructor
  · intro hb
    exact new_eval hu hd hue hde (by omega)
  · intro hb
    unfold HumanReadableName.new
    rw [required_extra_len_eq, if_pos (by omega)]

/-- Witness for C6 at both sides of the boundary. -/
theorem new_boundary_witness :
    HumanReadableName.new [97] (List.replicate 230 97) =
      some ⟨[97], List.replicate 230 97⟩ ∧
    HumanReadableName.new [97] (List.replicate 231 97) = none :=
  ⟨(new_boundary [97] (List.replicate 230 97) (by decide) (by decide)
      (by decide) (by decide)).1 (by simp),
   (new_boundary [97] (List.replicate 231 97) (by decide) (by decide)
      (by decide) (by decide)).2 (by simp)⟩

/-- C7: `HumanReadableName` construction fails whenever either part is
empty, for every value of the other part. -/
theorem new_empty_fails (user domain : List Nat) :
    HumanReadableName.new [] domain = none ∧
    HumanReadableName.new user [] = none := by
  constructor
  · unfold HumanReadableName.new
    split
    · rfl
    · rw [if_pos (by simp)]
  · unfold HumanReadableName.new
    split
    · rfl
    · rw [if_pos (by simp)]

/-- C8: for every input string, parse (`from_encoded`) strips at most one
leading `₿` marker (exactly one when present, none otherwise), then splits
on the first `@` and delegates the two halves to `new`; any input
containing no `@` fails; `parse("₿alice@example.com")` yields user
`alice` and domain `example.com`; `parse("alice-example.com")` fails. -/
theorem from_encoded_spec :
    (∀ s, HumanReadableName.from_encoded (bitcoinMarker ++ s) =
      (match splitOnce 64 s with
        | some (u, d) => HumanReadableName.new u d
        | none => none)) ∧
    (∀ s, s.take 3 ≠ bitcoinMarker → HumanReadableName.from_encoded s =
      (match splitOnce 64 s with
        | some (u, d) => HumanReadableName.new u d
        | none => none)) ∧
    (∀ s, ¬ 64 ∈ s → HumanReadableName.from_encoded s = none) ∧
    HumanReadableName.from_encoded (bitcoinMarker ++ asciiBytes "alice@example.com") =
      some ⟨asciiBytes "alice", asciiBytes "example.com"⟩ ∧
    HumanReadableName.from_encoded (asciiBytes "alice-example.com") = none := by
  refine ⟨?_, ?_, ?_, by decide, by decide⟩
  · intro s
    rw [HumanReadableName.from_encoded, stripBitcoinMarker]
    rw [show (bitcoinMarker ++ s).take 3 = bitcoinMarker by
      rw [show (3 : Nat) = bitcoinMarker.length from rfl]; exact List.take_left _ _]
    rw [if_pos rfl]
    rw [show (bitcoinMarker ++ s).drop 3 = s by
      rw [show (3 : Nat) = bitcoinMarker.length from rfl]; exact List.drop_left _ _]
  · intro s hs
    rw [HumanReadableName.from_encoded, stripBitcoinMarker, if_neg hs]
  · intro s hs
    have hsub : ¬ 64 ∈ stripBitcoinMarker s := by
      rw [stripBitcoinMarker]
      split
      · exact fun hm => hs (List.mem_of_mem_drop hm)
      · exact hs
    rw [HumanReadableName.from_encoded, splitOnce_none hsub]

/-- Witness for C8 at an `@`-free input. -/
theorem from_encoded_spec_witness :
    HumanReadableName.from_encoded [97] = none :=
  from_encoded_spec.2.2.1 [97] (by decide)

/-- C4: whenever a declared length prefix exceeds the bytes remaining —
the first or second one-byte prefix of the name decoder, the one-byte
hostname prefix of the message decoder under either known tag, or the
proof-bytes length prefix of the proof decoder, for every adversarial
declared length a Rust `usize` can hold (below `2^64`), including the
`0xffff`-escaped `BigSize` forms — decoding returns a failure value
rather than reading past the end of the input (the decoders are total
functions of the bytes actually present). -/
theorem decode_truncated :
    (∀ len rest, rest.length < len →
      HumanReadableName.read (len :: rest) = .error .shortRead) ∧
    (∀ u dlen rest, validUtf8 u = true → rest.length < dlen →
      HumanReadableName.read (u.length :: (u ++ dlen :: rest)) = .error .shortRead) ∧
    (∀ t len rest, DNSResolverMessage.is_known_type t = true → rest.length < len →
      DNSResolverMessage.read (len :: rest) t = .error .shortRead) ∧
    (∀ nm plen rest, str_is_valid_hostname nm = true → plen < 2 ^ 64 →
      rest.length < plen →
      DNSResolverMessage.read (nm.length :: (nm ++ (collectionLenWrite plen ++ rest))) 65538 =
        .error .shortRead) := by
  refine ⟨?_, ?_, ?_, ?_⟩
  · intro len rest hlt
    rw [HumanReadableName.read, readU8]
    dsimp only
    rw [readExact_short hlt]
  · intro u dlen rest hu hlt
    rw [HumanReadableName.read, readU8]
    dsimp only
    rw [readExact_append u (dlen :: rest)]
    dsimp only
    rw [hu, if_neg (by simp)]
    rw [readU8]
    dsimp only
    rw [readExact_short hlt]
  · intro t len rest hk hlt
    have hh : hostnameRead (len :: rest) = .error .shortRead := by
      rw [hostnameRead, readU8]
      dsimp only
      rw [readExact_short hlt]
    rw [DNSResolverMessage.is_known_type] at hk
    simp only [Bool.or_eq_true, decide_eq_true_eq] at hk
    rcases hk with rfl | rfl
    · rw [DNSResolverMessage.read, if_pos rfl, hh]
    · rw [DNSResolverMessage.read,
        if_neg (show ¬ DNSSEC_PROOF_TYPE = DNSSEC_QUERY_TYPE by decide), if_pos rfl, hh]
  · intro nm plen rest hnm hp hlt
    rw [DNSResolverMessage.read, if_neg (show ¬ (65538 : Nat) = DNSSEC_QUERY_TYPE by decide),
      if_pos (show (65538 : Nat) = DNSSEC_PROOF_TYPE from rfl)]
    rw [hostnameRead_eval (collectionLenWrite plen ++ rest) hnm]
    dsimp only
    rw [Name.tryFrom, dif_pos hnm]
    dsimp only
    rw [vecU8Read, collectionLenRead_write plen rest hp]
    dsimp only
    rw [readExact_short hlt]

/-- Witness for C4: a name decode whose first length prefix overruns, and
a proof decode whose declared proof length `65536` takes the `0xffff`
escape and overruns the two remaining bytes. -/
theorem decode_truncated_witness :
    HumanReadableName.read [5, 97] = .error .shortRead ∧
    DNSResolverMessage.read
        ((asciiBytes "a").length :: (asciiBytes "a" ++ (collectionLenWrite 65536 ++ [7, 7])))
        65538 = .error .shortRead :=
  ⟨decode_truncated.1 5 [97] (by decide),
   decode_truncated.2.2.2 (asciiBytes "a") 65536 [7, 7] (by decide) (by norm_num) (by decide)⟩

/-- C10: on success, the `HumanReadableName` binary decoder consumes
exactly `2 + user_len + domain_len` bytes — the remainder it returns is
the input minus that prefix — and its result depends only on that prefix:
re-reading the consumed prefix followed by any other bytes `t` succeeds
with the same name and leaves `t` untouched. -/
theorem hrn_read_frame (s r : List Nat) (h : HumanReadableName)
    (hr : HumanReadableName.read s = .ok (h, r)) :
    s.length = 2 + h.user.length + h.domain.length + r.length ∧
    r = s.drop (2 + h.user.length + h.domain.length) ∧
    ∀ t, HumanReadableName.read
      (s.take (2 + h.user.length + h.domain.length) ++ t) = .ok (h, t) := by
  obtain ⟨hs, hu8, hd8, hnew⟩ := hrn_read_elim hr
  subst hs
  refine ⟨by simp [List.length_append]; omega, ?_, ?_⟩
  · rw [show 2 + h.user.length + h.domain.length =
      h.user.length + (1 + h.domain.length) + 1 by omega]
    rw [List.drop_succ_cons, List.drop_append,
      show 1 + h.domain.length = h.domain.length + 1 by omega,
      List.drop_succ_cons, List.drop_left]
  · intro t
    rw [show 2 + h.user.length + h.domain.length =
      h.user.length + (1 + h.domain.length) + 1 by omega]
    rw [List.take_succ_cons, List.take_append,
      show 1 + h.domain.length = h.domain.length + 1 by omega,
      List.take_succ_cons, List.take_left]
    rw [show (h.user.length :: (h.user ++ h.domain.length :: h.domain) ++ t) =
      h.user.length :: (h.user ++ h.domain.length :: (h.domain ++ t)) by simp]
    exact hrn_read_eval _ _ t h hnew hu8 hd8

/-- Witness for C10 at a concrete successful decode. -/
theorem hrn_read_frame_witness :
    ([] : List Nat) = [1, 97, 1, 98].drop 4 ∧
    HumanReadableName.read (([1, 97, 1, 98] : List Nat).take 4 ++ [5]) =
      .ok (⟨[97], [98]⟩, [5]) :=
  ⟨(hrn_read_frame [1, 97, 1, 98] [] ⟨[97], [98]⟩ (by decide)).2.1,
   (hrn_read_frame [1, 97, 1, 98] [] ⟨[97], [98]⟩ (by decide)).2.2 [5]⟩

end DnsResolution
